import Mathlib

/-!
# Verification of the thread-repository core (`src/lib/actions/thread.actions.ts`)

A shallow embedding of the data-access layer of the threads application:
a document store holding `Thread`, `User` and `Community` records, together
with the operations `fetchPosts`, `createThread`, `fetchAllChildThreads`,
`deleteThread`, `fetchThreadById` and `addCommentToThread`, translated from
the TypeScript source.  Mongo ObjectIds are modelled as natural numbers;
the recursive child-thread expansion (general recursion in the source) is
modelled with explicit fuel, where an answer of `none` models a
non-terminating run.
-/

namespace Threads

/-- Opaque document identifier (a Mongo ObjectId in the source). -/
abbrev OID := Nat

/-- A `Thread` document: `thread.model` fields used by the actions.
`parentId = none` marks a root post; `children` is the ordered reply list;
`createdAt` drives feed ordering. -/
structure ThreadRec where
  id : OID
  text : String
  author : OID
  community : Option OID
  parentId : Option OID
  children : List OID
  createdAt : Nat
deriving DecidableEq, Repr

/-- A `User` document, reduced to the field the actions touch: the list of
thread ids pushed by `createThread` and pulled by `deleteThread`. -/
structure UserRec where
  id : OID
  threads : List OID
deriving DecidableEq, Repr

/-- A `Community` document: internal `_id`, the external `id` code queried by
`Community.findOne({ id: communityId })`, and its thread list. -/
structure CommunityRec where
  id : OID
  code : OID
  threads : List OID
deriving DecidableEq, Repr

/-- The document store reached through `connectToDB`: the three collections
plus a counter supplying fresh ObjectIds. -/
structure DB where
  threads : List ThreadRec
  users : List UserRec
  communities : List CommunityRec
  nextId : OID
deriving DecidableEq, Repr

/-- Error taxonomy of the spec that the actions can surface. -/
inductive Err where
  | NotFound
  | ValidationFailed
deriving DecidableEq, Repr

instance {ε α : Type} [DecidableEq ε] [DecidableEq α] : DecidableEq (Except ε α)
  | .error e, .error f =>
    if h : e = f then isTrue (by rw [h]) else isFalse (by intro hh; cases hh; exact h rfl)
  | .error _, .ok _ => isFalse (by intro hh; cases hh)
  | .ok _, .error _ => isFalse (by intro hh; cases hh)
  | .ok a, .ok b =>
    if h : a = b then isTrue (by rw [h]) else isFalse (by intro hh; cases hh; exact h rfl)

/-- `Thread.findById(id)`: the first (in a well-formed store, the only)
thread record with the given id. -/
def findThreadById (s : DB) (i : OID) : Option ThreadRec :=
  s.threads.find? (fun r => decide (r.id = i))

/-- `Thread.find({ parentId: threadId })`: all records whose `parentId`
equals `threadId`, in store order. -/
def childThreads (s : DB) (threadId : OID) : List ThreadRec :=
  s.threads.filter (fun r => decide (r.parentId = some threadId))

/-- The root-post filter `{ parentId: { $in: [null, undefined] } }`. -/
def rootFilter (r : ThreadRec) : Bool :=
  decide (r.parentId = none)

/-- The feed ordering `sort({ createdAt: "desc" })`. -/
def createdDesc (a b : ThreadRec) : Prop :=
  b.createdAt ≤ a.createdAt

instance : DecidableRel createdDesc := fun a b => Nat.decLe b.createdAt a.createdAt

instance : IsTotal ThreadRec createdDesc :=
  ⟨fun a b => Nat.le_total b.createdAt a.createdAt⟩

instance : IsTrans ThreadRec createdDesc :=
  ⟨fun _ _ _ h1 h2 => Nat.le_trans h2 h1⟩

/-- The root posts: result set of `Thread.find({ parentId: { $in: [null,
undefined] } })`, also counted by `countDocuments` on the same filter. -/
def rootThreads (s : DB) : List ThreadRec :=
  s.threads.filter rootFilter

/-- The root posts ordered by `createdAt` descending. -/
def sortedRoots (s : DB) : List ThreadRec :=
  List.insertionSort createdDesc (rootThreads s)

/-- `fetchPosts`: paginated list of root threads, newest first, together with
the `isNext` flag. -/
def fetchPosts (s : DB) (pageNumber pageSize : Nat) : List ThreadRec × Bool :=
  let skipAmount := (pageNumber - 1) * pageSize
  let posts := ((sortedRoots s).drop skipAmount).take pageSize
  let totalPostsCount := (rootThreads s).length
  (posts, decide (totalPostsCount > skipAmount + posts.length))

/-- `createThread`: resolves the optional community code, inserts a root
thread, pushes its id onto the author's thread list and, when a community
was resolved, onto the community's thread list.  `now` stands for the
store-supplied `createdAt` timestamp. -/
def createThread (s : DB) (text : String) (author : OID) (communityId : Option OID)
    (now : Nat) : DB × OID :=
  let communityIdObject := communityId.bind
    (fun code => s.communities.find? (fun c => decide (c.code = code)))
  let newId := s.nextId
  let createdThread : ThreadRec :=
    { id := newId, text := text, author := author,
      community := communityIdObject.map (fun c => c.id),
      parentId := none, children := [], createdAt := now }
  let users := s.users.map (fun u =>
    if u.id = author then { u with threads := u.threads ++ [newId] } else u)
  let communities :=
    match communityIdObject with
    | some cObj => s.communities.map (fun c =>
        if c.id = cObj.id then { c with threads := c.threads ++ [newId] } else c)
    | none => s.communities
  ({ threads := s.threads ++ [createdThread], users := users,
     communities := communities, nextId := newId + 1 }, newId)

/-- Modelled from the spec: the empty-text `ValidationFailed` check of
`createRoot` ("surfaced immediately, no store access attempted") lives in the
form-validation layer, which is not among the provided source files;
`createThread` itself performs no text validation.  Per the spec, `createRoot`
rejects empty text before touching the store and otherwise behaves as the
source's `createThread`. -/
def createRoot (s : DB) (text : String) (author : OID) (communityId : Option OID)
    (now : Nat) : Except Err (DB × OID) :=
  if text = "" then .error .ValidationFailed
  else .ok (createThread s text author communityId now)

/-- The loop body of `fetchAllChildThreads`: walk the list of child records;
for each, push the child and then, via `expand`, the recursively computed
expansion of the child's own subtree. -/
def fetchDescendantsList (expand : OID → Option (List ThreadRec)) :
    List ThreadRec → Option (List ThreadRec)
  | [] => some []
  | childThread :: rest =>
    match expand childThread.id with
    | none => none
    | some descendants =>
      match fetchDescendantsList expand rest with
      | none => none
      | some tailPart => some (childThread :: (descendants ++ tailPart))

/-- The recursion of `fetchAllChildThreads`, made total with explicit fuel
bounding the recursion depth: `none` models a run of the source's unguarded
recursion that does not terminate within `fuel` nesting levels. -/
def fetchDescendants (s : DB) : Nat → OID → Option (List ThreadRec)
  | 0, _ => none
  | fuel + 1, threadId =>
    fetchDescendantsList (fetchDescendants s fuel) (childThreads s threadId)

/-- `fetchAllChildThreads({ threadId })`: every transitive descendant of
`threadId`, parent before its own descendants.  On a store whose reachable
parent links are acyclic the fuel `|threads| + 1` always suffices (proved
below); `none` therefore marks exactly the runs on which the source's
unguarded recursion diverges. -/
def fetchAllChildThreads (s : DB) (threadId : OID) : Option (List ThreadRec) :=
  fetchDescendants s (s.threads.length + 1) threadId

/-- The victim id set of a delete: the main id plus all descendant ids. -/
def victimIds (id : OID) (descendantThreads : List ThreadRec) : List OID :=
  id :: descendantThreads.map (fun t => t.id)

/-- The author ids reference-retraction targets: the authors of the main
thread and of every descendant. -/
def authorIds (mainThread : ThreadRec) (descendantThreads : List ThreadRec) : List OID :=
  descendantThreads.map (fun t => t.author) ++ [mainThread.author]

/-- The community ids reference-retraction targets, `undefined` entries
filtered out. -/
def communityIds (mainThread : ThreadRec) (descendantThreads : List ThreadRec) : List OID :=
  (descendantThreads.map (fun t => t.community) ++ [mainThread.community]).reduceOption

/-- The write phase of `deleteThread`: `Thread.deleteMany` on the victim ids
followed by `User.updateMany`/`Community.updateMany` with `$pull` of the
victim ids from the `threads` arrays of the collected authors/communities. -/
def deleteApply (s : DB) (id : OID) (mainThread : ThreadRec)
    (descendantThreads : List ThreadRec) : DB :=
  { threads := s.threads.filter
      (fun t => decide (t.id ∉ victimIds id descendantThreads)),
    users := s.users.map (fun u =>
      if u.id ∈ authorIds mainThread descendantThreads then
        { u with
            threads := u.threads.filter
              (fun t => decide (t ∉ victimIds id descendantThreads)) }
      else u),
    communities := s.communities.map (fun c =>
      if c.id ∈ communityIds mainThread descendantThreads then
        { c with
            threads := c.threads.filter
              (fun t => decide (t ∉ victimIds id descendantThreads)) }
      else c),
    nextId := s.nextId }

/-- `deleteThread`: fetch the main thread (`NotFound` when absent), expand
its subtree, bulk-delete the victim ids, and pull the victim ids from the
thread lists of every author and community that owned a victim. -/
def deleteThread (s : DB) (id : OID) : Option (Except Err DB) :=
  match findThreadById s id with
  | none => some (.error .NotFound)
  | some mainThread =>
    match fetchAllChildThreads s id with
    | none => none
    | some descendantThreads => some (.ok (deleteApply s id mainThread descendantThreads))

/-- `fetchThreadById`: looks the thread up and populates its children; an
absent id yields a successful `none` (the source returns the bare
`findById` result, `null` included), never an error. -/
def fetchThreadById (s : DB) (id : OID) :
    Except Err (Option (ThreadRec × List ThreadRec)) :=
  .ok ((findThreadById s id).map
    (fun t => (t, t.children.filterMap (findThreadById s))))

/-- The new comment thread document built by `addCommentToThread`. -/
def commentRec (s : DB) (threadId : OID) (commentText : String) (userId : OID)
    (now : Nat) : ThreadRec :=
  { id := s.nextId, text := commentText, author := userId, community := none,
    parentId := some threadId, children := [], createdAt := now }

/-- `originalThread.children.push(savedCommentThread._id)` followed by
`originalThread.save()`: the record with the parent's id gets the new id
appended to its `children`; every other record is untouched. -/
def pushChild (newId threadId : OID) (t : ThreadRec) : ThreadRec :=
  if t.id = threadId then { t with children := t.children ++ [newId] } else t

/-- The write phase of `addCommentToThread`: save the comment thread, then
save the parent with the comment id appended to its `children`. -/
def commentApply (s : DB) (threadId : OID) (commentText : String) (userId : OID)
    (now : Nat) : DB :=
  { s with
      threads := (s.threads.map (pushChild s.nextId threadId))
        ++ [commentRec s threadId commentText userId now],
      nextId := s.nextId + 1 }

/-- `addCommentToThread`: `NotFound` when the parent is absent; otherwise a
new thread with `parentId = threadId` is saved and its id appended to the
parent's `children`. -/
def addCommentToThread (s : DB) (threadId : OID) (commentText : String) (userId : OID)
    (now : Nat) : Except Err (DB × OID) :=
  match findThreadById s threadId with
  | none => .error .NotFound
  | some _ => .ok (commentApply s threadId commentText userId now, s.nextId)

/-! ## Semantic notions used by the statements -/

/-- `c` is a child of `p` in the store: some record has id `c` and parent `p`. -/
def IsChildOf (s : DB) (c p : OID) : Prop :=
  ∃ r, r ∈ s.threads ∧ r.id = c ∧ r.parentId = some p

/-- `x` is a transitive descendant of `t`. -/
def Desc (s : DB) (t x : OID) : Prop :=
  Relation.TransGen (fun a b => IsChildOf s b a) t x

/-- A depth measure witnessing that parent links point strictly upwards. -/
def DepthOk (s : DB) (d : OID → Nat) : Prop :=
  ∀ r ∈ s.threads, ∀ p ∈ r.parentId, d p < d r.id

/-- The parent/child links form a forest: some depth measure increases along
every parent link. -/
def Forest (s : DB) : Prop :=
  ∃ d : OID → Nat, DepthOk s d

/-- Thread ids are pairwise distinct (the store is keyed by id). -/
def WFIds (s : DB) : Prop :=
  (s.threads.map (fun r => r.id)).Nodup

/-- Every id already present in the store is below the fresh-id counter. -/
def IdsFresh (s : DB) : Prop :=
  ∀ r ∈ s.threads, r.id < s.nextId ∧ ∀ c ∈ r.children, c < s.nextId

/-- The `childIds` invariant of the spec: `children` lists only ids of
threads whose `parentId` is this thread's id. -/
def ChildrenLinked (s : DB) : Prop :=
  ∀ r ∈ s.threads, ∀ c ∈ r.children, ∀ q ∈ s.threads, q.id = c → q.parentId = some r.id

/-- A user's thread list only mentions stored threads it authored. -/
def UserOwnership (s : DB) : Prop :=
  ∀ u ∈ s.users, ∀ t ∈ u.threads, ∀ r ∈ s.threads, r.id = t → r.author = u.id

/-- A community's thread list only mentions stored threads it contains. -/
def CommunityOwnership (s : DB) : Prop :=
  ∀ c ∈ s.communities, ∀ t ∈ c.threads, ∀ r ∈ s.threads, r.id = t → r.community = some c.id

instance (s : DB) (d : OID → Nat) : Decidable (DepthOk s d) := by
  unfold DepthOk; infer_instance

instance (s : DB) : Decidable (WFIds s) := by
  unfold WFIds; infer_instance

instance (s : DB) : Decidable (IdsFresh s) := by
  unfold IdsFresh; infer_instance

instance (s : DB) : Decidable (ChildrenLinked s) := by
  unfold ChildrenLinked; infer_instance

instance (s : DB) : Decidable (UserOwnership s) := by
  unfold UserOwnership; infer_instance

instance (s : DB) : Decidable (CommunityOwnership s) := by
  unfold CommunityOwnership; infer_instance

/-! ## Basic store lemmas -/

/-- The ids of a list of thread records. -/
def ids (l : List ThreadRec) : List OID :=
  l.map (fun r => r.id)

theorem ids_nil : ids [] = [] := rfl

theorem ids_cons (r : ThreadRec) (l : List ThreadRec) : ids (r :: l) = r.id :: ids l := rfl

theorem ids_append (l1 l2 : List ThreadRec) : ids (l1 ++ l2) = ids l1 ++ ids l2 :=
  List.map_append ..

theorem mem_ids {x : OID} {l : List ThreadRec} : x ∈ ids l ↔ ∃ r ∈ l, r.id = x := by
  simp [ids, eq_comm]

theorem mem_childThreads {s : DB} {t : OID} {r : ThreadRec} :
    r ∈ childThreads s t ↔ r ∈ s.threads ∧ r.parentId = some t := by
  simp [childThreads]

theorem childThreads_sublist (s : DB) (t : OID) :
    List.Sublist (childThreads s t) s.threads :=
  List.filter_sublist _

theorem nodup_ids_childThreads {s : DB} (hW : WFIds s) (t : OID) :
    (ids (childThreads s t)).Nodup := by
  exact List.Nodup.sublist (List.Sublist.map _ (childThreads_sublist s t)) hW

theorem uniqueRecord {s : DB} (hW : WFIds s) {r q : ThreadRec}
    (hr : r ∈ s.threads) (hq : q ∈ s.threads) (h : r.id = q.id) : r = q :=
  List.inj_on_of_nodup_map hW hr hq h

theorem findThreadById_eq_some {s : DB} {i : OID} {r : ThreadRec}
    (h : findThreadById s i = some r) : r ∈ s.threads ∧ r.id = i := by
  refine ⟨List.mem_of_find?_eq_some h, ?_⟩
  have := List.find?_some h
  simpa using this

theorem findThreadById_eq_none {s : DB} {i : OID} :
    findThreadById s i = none ↔ ∀ r ∈ s.threads, r.id ≠ i := by
  simp [findThreadById, List.find?_eq_none]

theorem findThreadById_mem {s : DB} (hW : WFIds s) {r : ThreadRec}
    (hr : r ∈ s.threads) : findThreadById s r.id = some r := by
  cases hfind : findThreadById s r.id with
  | none => exact absurd rfl (findThreadById_eq_none.mp hfind r hr)
  | some q =>
    obtain ⟨hqm, hqi⟩ := findThreadById_eq_some hfind
    rw [uniqueRecord hW hqm hr hqi]

/-! ## Lemmas about parent links, `Desc`, and depth measures -/

theorem isChildOf_of_mem {s : DB} {r : ThreadRec} {t : OID}
    (hr : r ∈ s.threads) (hp : r.parentId = some t) : IsChildOf s r.id t :=
  ⟨r, hr, rfl, hp⟩

theorem depth_lt_of_isChildOf {s : DB} {d : OID → Nat} (hd : DepthOk s d)
    {c p : OID} (h : IsChildOf s c p) : d p < d c := by
  obtain ⟨r, hr, hid, hp⟩ := h
  have := hd r hr p (by rw [hp]; rfl)
  rwa [hid] at this

theorem depth_lt_of_desc {s : DB} {d : OID → Nat} (hd : DepthOk s d)
    {t x : OID} (h : Desc s t x) : d t < d x := by
  induction h with
  | single hc => exact depth_lt_of_isChildOf hd hc
  | tail _ hc ih => exact Nat.lt_trans ih (depth_lt_of_isChildOf hd hc)

theorem desc_irrefl {s : DB} {d : OID → Nat} (hd : DepthOk s d) {t : OID} :
    ¬ Desc s t t := fun h => Nat.lt_irrefl _ (depth_lt_of_desc hd h)

theorem desc_single {s : DB} {c t : OID} (h : IsChildOf s c t) : Desc s t c :=
  Relation.TransGen.single h

theorem desc_head {s : DB} {t c x : OID} (hc : IsChildOf s c t) (h : Desc s c x) :
    Desc s t x :=
  Relation.TransGen.head hc h

theorem desc_trans {s : DB} {t u x : OID} (h1 : Desc s t u) (h2 : Desc s u x) :
    Desc s t x :=
  Relation.TransGen.trans h1 h2

/-- First-step characterization: a descendant of `t` is a child of `t` or a
descendant of a child of `t`. -/
theorem desc_iff {s : DB} {t x : OID} :
    Desc s t x ↔ ∃ r ∈ childThreads s t, r.id = x ∨ Desc s r.id x := by
  constructor
  · intro h
    rcases Relation.TransGen.head'_iff.mp h with ⟨b, hb, hrest⟩
    obtain ⟨r, hr, hid, hp⟩ := hb
    refine ⟨r, mem_childThreads.mpr ⟨hr, hp⟩, ?_⟩
    rcases Relation.reflTransGen_iff_eq_or_transGen.mp hrest with heq | htg
    · exact Or.inl (heq ▸ hid)
    · exact Or.inr (hid ▸ htg)
  · rintro ⟨r, hr, hx | hdesc⟩
    · obtain ⟨hm, hp⟩ := mem_childThreads.mp hr
      exact hx ▸ desc_single (isChildOf_of_mem hm hp)
    · obtain ⟨hm, hp⟩ := mem_childThreads.mp hr
      exact desc_head (isChildOf_of_mem hm hp) hdesc

/-- Last-step characterization: a descendant of `t` is a child of `t` or a
child of a descendant of `t`. -/
theorem desc_tail_iff {s : DB} {t x : OID} :
    Desc s t x ↔ ∃ u, (u = t ∨ Desc s t u) ∧ IsChildOf s x u := by
  constructor
  · intro h
    rcases Relation.TransGen.tail'_iff.mp h with ⟨b, hb, hlast⟩
    rcases Relation.reflTransGen_iff_eq_or_transGen.mp hb with heq | htg
    · exact ⟨b, Or.inl heq, hlast⟩
    · exact ⟨b, Or.inr htg, hlast⟩
  · rintro ⟨u, hu | hu, hc⟩
    · exact hu ▸ desc_single hc
    · exact Relation.TransGen.tail hu hc

/-- Under unique ids, a node has at most one parent. -/
theorem parent_unique {s : DB} (hW : WFIds s) {x u v : OID}
    (h1 : IsChildOf s x u) (h2 : IsChildOf s x v) : u = v := by
  obtain ⟨r, hr, hrid, hrp⟩ := h1
  obtain ⟨q, hq, hqid, hqp⟩ := h2
  have : r = q := uniqueRecord hW hr hq (by rw [hrid, hqid])
  subst this
  rw [hrp] at hqp
  exact Option.some_inj.mp hqp

/-! ## Run lemmas for the fuelled expansion -/

theorem fetchDescendantsList_nil (expand : OID → Option (List ThreadRec)) :
    fetchDescendantsList expand [] = some [] := rfl

theorem fetchDescendantsList_cons_eq_some {expand : OID → Option (List ThreadRec)}
    {c : ThreadRec} {rest : List ThreadRec} {out : List ThreadRec} :
    fetchDescendantsList expand (c :: rest) = some out ↔
      ∃ ds tl, expand c.id = some ds ∧ fetchDescendantsList expand rest = some tl ∧
        out = c :: (ds ++ tl) := by
  constructor
  · intro h
    rw [fetchDescendantsList] at h
    cases hds : expand c.id with
    | none => rw [hds] at h; cases h
    | some ds =>
      rw [hds] at h
      cases htl : fetchDescendantsList expand rest with
      | none => rw [htl] at h; cases h
      | some tl =>
        rw [htl] at h
        exact ⟨ds, tl, rfl, rfl, (Option.some_inj.mp h).symm⟩
  · rintro ⟨ds, tl, hds, htl, hout⟩
    rw [fetchDescendantsList, hds, htl, hout]

theorem fetchDescendants_zero (s : DB) (t : OID) : fetchDescendants s 0 t = none := rfl

theorem fetchDescendants_succ (s : DB) (fuel : Nat) (t : OID) :
    fetchDescendants s (fuel + 1) t =
      fetchDescendantsList (fetchDescendants s fuel) (childThreads s t) := rfl

/-- Records returned by the list worker are store records, provided the
expansion function only returns store records. -/
theorem fetchDescendantsList_mem {s : DB} {expand : OID → Option (List ThreadRec)}
    (hexp : ∀ i ds, expand i = some ds → ∀ r ∈ ds, r ∈ s.threads) :
    ∀ l out, (∀ c ∈ l, c ∈ s.threads) →
      fetchDescendantsList expand l = some out → ∀ r ∈ out, r ∈ s.threads := by
  intro l
  induction l with
  | nil => intro out _ h r hr; cases h; cases hr
  | cons c rest ih =>
    intro out hl h r hr
    obtain ⟨ds, tl, hds, htl, hout⟩ := fetchDescendantsList_cons_eq_some.mp h
    subst hout
    rcases List.mem_cons.mp hr with hr | hr
    · exact hr ▸ hl c (List.mem_cons_self c rest)
    · rcases List.mem_append.mp hr with hr | hr
      · exact hexp c.id ds hds r hr
      · exact ih tl (fun a ha => hl a (List.mem_cons_of_mem _ ha)) htl r hr

/-- Every record the expansion returns is a store record. -/
theorem fetchDescendants_mem {s : DB} :
    ∀ fuel t out, fetchDescendants s fuel t = some out → ∀ r ∈ out, r ∈ s.threads := by
  intro fuel
  induction fuel with
  | zero => intro t out h; cases h
  | succ fuel ih =>
    intro t out h
    exact fetchDescendantsList_mem (fun i ds hds => ih i ds hds) (childThreads s t)
      out (fun c hc => (mem_childThreads.mp hc).1) h

/-- Soundness: every id the expansion returns is a descendant, provided the
expansion function is sound. -/
theorem fetchDescendantsList_desc {s : DB} {t : OID} {expand : OID → Option (List ThreadRec)}
    (hexp : ∀ i ds, expand i = some ds → ∀ x, x ∈ ids ds → Desc s i x) :
    ∀ l out, (∀ c ∈ l, c ∈ s.threads ∧ c.parentId = some t) →
      fetchDescendantsList expand l = some out → ∀ x ∈ ids out, Desc s t x := by
  intro l
  induction l with
  | nil => intro out _ h x hx; cases h; cases hx
  | cons c rest ih =>
    intro out hl h x hx
    obtain ⟨ds, tl, hds, htl, hout⟩ := fetchDescendantsList_cons_eq_some.mp h
    subst hout
    have hc := hl c (List.mem_cons_self c rest)
    rw [ids_cons, ids_append] at hx
    rcases List.mem_cons.mp hx with hx | hx
    · exact hx ▸ desc_single (isChildOf_of_mem hc.1 hc.2)
    · rcases List.mem_append.mp hx with hx | hx
      · exact desc_head (isChildOf_of_mem hc.1 hc.2) (hexp c.id ds hds x hx)
      · exact ih tl (fun a ha => hl a (List.mem_cons_of_mem _ ha)) htl x hx

theorem fetchDescendants_desc {s : DB} :
    ∀ fuel t out, fetchDescendants s fuel t = some out → ∀ x ∈ ids out, Desc s t x := by
  intro fuel
  induction fuel with
  | zero => intro t out h; cases h
  | succ fuel ih =>
    intro t out h
    exact fetchDescendantsList_desc (s := s) (t := t) (fun i ds hds => ih i ds hds)
      (childThreads s t) out (fun c hc => mem_childThreads.mp hc) h

/-- A successful list run keeps every listed child and everything its
expansion returned. -/
theorem fetchDescendantsList_complete {expand : OID → Option (List ThreadRec)} :
    ∀ l out, fetchDescendantsList expand l = some out →
      ∀ r ∈ l, r.id ∈ ids out ∧
        ∃ ds, expand r.id = some ds ∧ ∀ y ∈ ids ds, y ∈ ids out := by
  intro l
  induction l with
  | nil => intro out _ r hr; cases hr
  | cons c rest ih =>
    intro out h r hr
    obtain ⟨ds, tl, hds, htl, hout⟩ := fetchDescendantsList_cons_eq_some.mp h
    subst hout
    rcases List.mem_cons.mp hr with hr | hr
    · subst hr
      refine ⟨by rw [ids_cons]; exact List.mem_cons_self _ _, ds, hds, fun y hy => ?_⟩
      rw [ids_cons, ids_append]
      exact List.mem_cons_of_mem _ (List.mem_append.mpr (Or.inl hy))
    · obtain ⟨h1, ds2, hds2, h2⟩ := ih tl htl r hr
      refine ⟨?_, ds2, hds2, fun y hy => ?_⟩
      · rw [ids_cons, ids_append]
        exact List.mem_cons_of_mem _ (List.mem_append.mpr (Or.inr h1))
      · rw [ids_cons, ids_append]
        exact List.mem_cons_of_mem _ (List.mem_append.mpr (Or.inr (h2 y hy)))

/-- Completeness: a successful expansion mentions every descendant. -/
theorem fetchDescendants_complete {s : DB} :
    ∀ fuel t out, fetchDescendants s fuel t = some out →
      ∀ x, Desc s t x → x ∈ ids out := by
  intro fuel
  induction fuel with
  | zero => intro t out h; cases h
  | succ fuel ih =>
    intro t out h x hx
    rcases desc_iff.mp hx with ⟨r, hr, hcase⟩
    obtain ⟨h1, ds, hds, h2⟩ := fetchDescendantsList_complete (childThreads s t) out h r hr
    rcases hcase with hcase | hcase
    · exact hcase ▸ h1
    · exact h2 x (ih r.id ds hds x hcase)

/-! ## Fuel sufficiency on acyclic stores -/

theorem length_filter_lt {α : Type} {p q : α → Bool} (hpq : ∀ a, p a = true → q a = true)
    {l : List α} {c : α} (hc : c ∈ l) (hpc : p c = false) (hqc : q c = true) :
    (l.filter p).length < (l.filter q).length := by
  induction l with
  | nil => cases hc
  | cons a tl ih =>
    have hmono : (tl.filter p).length ≤ (tl.filter q).length :=
      List.Sublist.length_le (List.monotone_filter_right tl hpq)
    rcases List.mem_cons.mp hc with rfl | hc2
    · simp only [List.filter_cons, hpc, hqc, if_true, if_false, Bool.false_eq_true,
        List.length_cons]
      omega
    · have hih := ih hc2
      cases hpa : p a with
      | true =>
        have hqa := hpq a hpa
        simp only [List.filter_cons, hpa, hqa, if_true, List.length_cons]
        omega
      | false =>
        cases hqa : q a with
        | true =>
          simp only [List.filter_cons, hpa, hqa, if_true, if_false, Bool.false_eq_true,
            List.length_cons]
          omega
        | false =>
          simp only [List.filter_cons, hpa, hqa, if_false, Bool.false_eq_true]
          omega

/-- The number of store records strictly deeper than `t` for the measure `d`. -/
def deeperCount (s : DB) (d : OID → Nat) (t : OID) : Nat :=
  (s.threads.filter (fun r => decide (d t < d r.id))).length

theorem deeperCount_lt {s : DB} {d : OID → Nat} {t : OID} {c : ThreadRec}
    (hc : c ∈ s.threads) (hdc : d t < d c.id) :
    deeperCount s d c.id < deeperCount s d t := by
  refine length_filter_lt (fun a ha => ?_) hc (by simp) (by simpa using hdc)
  simp only [decide_eq_true_eq] at ha ⊢
  exact Nat.lt_trans hdc ha

theorem deeperCount_le_length (s : DB) (d : OID → Nat) (t : OID) :
    deeperCount s d t ≤ s.threads.length :=
  List.length_filter_le _ _

/-- With an increasing depth measure, fuel exceeding the count of deeper
records suffices for the expansion to return a result. -/
theorem fetchDescendants_isSome {s : DB} {d : OID → Nat} (hd : DepthOk s d) :
    ∀ fuel t, deeperCount s d t < fuel → ∃ out, fetchDescendants s fuel t = some out := by
  intro fuel
  induction fuel with
  | zero => intro t h; cases h
  | succ fuel ih =>
    intro t hfuel
    rw [fetchDescendants_succ]
    have hlist : ∀ l : List ThreadRec, (∀ c ∈ l, c ∈ s.threads ∧ c.parentId = some t) →
        ∃ out, fetchDescendantsList (fetchDescendants s fuel) l = some out := by
      intro l
      induction l with
      | nil => intro _; exact ⟨[], rfl⟩
      | cons c rest ihl =>
        intro hl
        obtain ⟨hcm, hcp⟩ := hl c (List.mem_cons_self c rest)
        have hdc : d t < d c.id := depth_lt_of_isChildOf hd (isChildOf_of_mem hcm hcp)
        have hcount : deeperCount s d c.id < fuel :=
          Nat.lt_of_lt_of_le (deeperCount_lt hcm hdc) (Nat.lt_succ_iff.mp hfuel)
        obtain ⟨ds, hds⟩ := ih c.id hcount
        obtain ⟨tl, htl⟩ := ihl (fun a ha => hl a (List.mem_cons_of_mem _ ha))
        exact ⟨c :: (ds ++ tl), fetchDescendantsList_cons_eq_some.mpr ⟨ds, tl, hds, htl, rfl⟩⟩
    exact hlist (childThreads s t) (fun c hc => mem_childThreads.mp hc)

/-- On a forest, `fetchAllChildThreads` always returns a result. -/
theorem fetchAllChildThreads_isSome {s : DB} (hF : Forest s) (t : OID) :
    ∃ out, fetchAllChildThreads s t = some out := by
  obtain ⟨d, hd⟩ := hF
  exact fetchDescendants_isSome hd (s.threads.length + 1) t
    (Nat.lt_succ_of_le (deeperCount_le_length s d t))

/-! ## Disjointness of sibling subtrees and duplicate-freedom -/

/-- Subtrees rooted at two distinct children of the same node are disjoint. -/
theorem sibling_disjoint {s : DB} (hW : WFIds s) {d : OID → Nat} (hd : DepthOk s d)
    {t c1 c2 : OID} (h1 : IsChildOf s c1 t) (h2 : IsChildOf s c2 t) (hne : c1 ≠ c2) :
    ∀ x, (x = c1 ∨ Desc s c1 x) → (x = c2 ∨ Desc s c2 x) → False := by
  suffices H : ∀ n t c1 c2, IsChildOf s c1 t → IsChildOf s c2 t → c1 ≠ c2 →
      ∀ x, d x = n → (x = c1 ∨ Desc s c1 x) → (x = c2 ∨ Desc s c2 x) → False by
    intro x hs1 hs2
    exact H (d x) t c1 c2 h1 h2 hne x rfl hs1 hs2
  intro n
  induction n using Nat.strong_induction_on with
  | _ n ih =>
    intro t c1 c2 h1 h2 hne x hdx hs1 hs2
    rcases hs1 with rfl | hdesc1
    · rcases hs2 with rfl | hdesc2
      · exact hne rfl
      · obtain ⟨u, hu, hcu⟩ := desc_tail_iff.mp hdesc2
        have hut : u = t := parent_unique hW hcu h1
        subst hut
        rcases hu with rfl | hu
        · exact Nat.lt_irrefl _ (depth_lt_of_isChildOf hd h2)
        · exact Nat.lt_irrefl _
            (Nat.lt_trans (depth_lt_of_isChildOf hd h2) (depth_lt_of_desc hd hu))
    · rcases hs2 with rfl | hdesc2
      · obtain ⟨u, hu, hcu⟩ := desc_tail_iff.mp hdesc1
        have hut : u = t := parent_unique hW hcu h2
        subst hut
        rcases hu with rfl | hu
        · exact Nat.lt_irrefl _ (depth_lt_of_isChildOf hd h1)
        · exact Nat.lt_irrefl _
            (Nat.lt_trans (depth_lt_of_isChildOf hd h1) (depth_lt_of_desc hd hu))
      · obtain ⟨u, hu, hcu⟩ := desc_tail_iff.mp hdesc1
        obtain ⟨v, hv, hcv⟩ := desc_tail_iff.mp hdesc2
        have huv : u = v := parent_unique hW hcu hcv
        subst huv
        subst hdx
        exact ih (d u) (depth_lt_of_isChildOf hd hcu) t c1 c2 h1 h2 hne u rfl hu hv

/-- Every id a successful list run returns lies in the subtree of one of the
listed children. -/
theorem fetchDescendantsList_range {s : DB} {fuel : Nat} :
    ∀ l out, fetchDescendantsList (fetchDescendants s fuel) l = some out →
      ∀ x ∈ ids out, ∃ c ∈ l, (x = c.id ∨ Desc s c.id x) := by
  intro l
  induction l with
  | nil => intro out h x hx; cases h; cases hx
  | cons c rest ih =>
    intro out h x hx
    obtain ⟨ds, tl, hds, htl, hout⟩ := fetchDescendantsList_cons_eq_some.mp h
    subst hout
    rw [ids_cons, ids_append] at hx
    rcases List.mem_cons.mp hx with hx | hx
    · exact ⟨c, List.mem_cons_self c rest, Or.inl hx⟩
    · rcases List.mem_append.mp hx with hx | hx
      · exact ⟨c, List.mem_cons_self c rest, Or.inr (fetchDescendants_desc fuel c.id ds hds x hx)⟩
      · obtain ⟨c2, hc2, hsub⟩ := ih tl htl x hx
        exact ⟨c2, List.mem_cons_of_mem _ hc2, hsub⟩

/-- A successful list run over children of one node lists no id twice. -/
theorem fetchDescendantsList_nodup {s : DB} (hW : WFIds s) {d : OID → Nat}
    (hd : DepthOk s d) {t : OID} {fuel : Nat}
    (ihnodup : ∀ u ds, fetchDescendants s fuel u = some ds → (ids ds).Nodup) :
    ∀ l out, (∀ c ∈ l, c ∈ s.threads ∧ c.parentId = some t) → (ids l).Nodup →
      fetchDescendantsList (fetchDescendants s fuel) l = some out →
      (ids out).Nodup := by
  intro l
  induction l with
  | nil => intro out _ _ h; cases h; exact List.nodup_nil
  | cons c rest ih =>
    intro out hl hnod h
    obtain ⟨ds, tl, hds, htl, hout⟩ := fetchDescendantsList_cons_eq_some.mp h
    subst hout
    obtain ⟨hcm, hcp⟩ := hl c (List.mem_cons_self c rest)
    have hchild : IsChildOf s c.id t := isChildOf_of_mem hcm hcp
    rw [ids_cons] at hnod
    obtain ⟨hcnot, hrestnod⟩ := List.nodup_cons.mp hnod
    have hdsdesc : ∀ x ∈ ids ds, Desc s c.id x := fetchDescendants_desc fuel c.id ds hds
    have htlrange := fetchDescendantsList_range rest tl htl
    have hne2 : ∀ c2 ∈ rest, c.id ≠ c2.id := by
      intro c2 hc2 heq
      exact hcnot (heq ▸ List.mem_map_of_mem _ hc2)
    have hdisj : ∀ x, x ∈ ids ds ∨ x = c.id → x ∈ ids tl → False := by
      intro x hx hxtl
      obtain ⟨c2, hc2, hsub2⟩ := htlrange x hxtl
      obtain ⟨hc2m, hc2p⟩ := hl c2 (List.mem_cons_of_mem _ hc2)
      have hchild2 : IsChildOf s c2.id t := isChildOf_of_mem hc2m hc2p
      have hsub1 : x = c.id ∨ Desc s c.id x := by
        rcases hx with hx | hx
        · exact Or.inr (hdsdesc x hx)
        · exact Or.inl hx
      exact sibling_disjoint hW hd hchild hchild2 (hne2 c2 hc2) x hsub1 hsub2
    rw [ids_cons, ids_append]
    refine List.nodup_cons.mpr ⟨?_, List.nodup_append.mpr ⟨ihnodup c.id ds hds, ?_, ?_⟩⟩
    · intro hmem
      rcases List.mem_append.mp hmem with hmem | hmem
      · exact desc_irrefl hd (hdsdesc c.id hmem)
      · exact hdisj c.id (Or.inr rfl) hmem
    · exact ih tl (fun a ha => hl a (List.mem_cons_of_mem _ ha)) hrestnod htl
    · intro x hx hxtl
      exact hdisj x (Or.inl hx) hxtl

/-- On a well-formed acyclic store the expansion lists no id twice. -/
theorem fetchDescendants_nodup {s : DB} (hW : WFIds s) {d : OID → Nat}
    (hd : DepthOk s d) :
    ∀ fuel t out, fetchDescendants s fuel t = some out → (ids out).Nodup := by
  intro fuel
  induction fuel with
  | zero => intro t out h; cases h
  | succ fuel ih =>
    intro t out h
    exact fetchDescendantsList_nodup hW hd (fun u ds hds => ih u ds hds)
      (childThreads s t) out (fun c hc => mem_childThreads.mp hc)
      (nodup_ids_childThreads hW t) h

/-- A successful list run puts every node before each of its descendants. -/
theorem fetchDescendantsList_before {s : DB} (hW : WFIds s) {d : OID → Nat}
    (hd : DepthOk s d) {t : OID} {fuel : Nat}
    (ihpre : ∀ u ds, fetchDescendants s fuel u = some ds →
      ∀ a b, a ∈ ids ds → Desc s a b → b ∈ ids ds →
        ∃ p1 p2, ds = p1 ++ p2 ∧ a ∈ ids p1 ∧ b ∈ ids p2) :
    ∀ l out, (∀ c ∈ l, c ∈ s.threads ∧ c.parentId = some t) → (ids l).Nodup →
      fetchDescendantsList (fetchDescendants s fuel) l = some out →
      ∀ a b, a ∈ ids out → Desc s a b → b ∈ ids out →
        ∃ p1 p2, out = p1 ++ p2 ∧ a ∈ ids p1 ∧ b ∈ ids p2 := by
  intro l
  induction l with
  | nil => intro out _ _ h a b ha _ _; cases h; cases ha
  | cons c rest ih =>
    intro out hl hnod h a b ha hab hb
    obtain ⟨ds, tl, hds, htl, hout⟩ := fetchDescendantsList_cons_eq_some.mp h
    subst hout
    obtain ⟨hcm, hcp⟩ := hl c (List.mem_cons_self c rest)
    have hchild : IsChildOf s c.id t := isChildOf_of_mem hcm hcp
    rw [ids_cons] at hnod
    obtain ⟨hcnot, hrestnod⟩ := List.nodup_cons.mp hnod
    have hdsdesc : ∀ x ∈ ids ds, Desc s c.id x := fetchDescendants_desc fuel c.id ds hds
    have htlrange := fetchDescendantsList_range rest tl htl
    have hne2 : ∀ c2 ∈ rest, c.id ≠ c2.id := by
      intro c2 hc2 heq
      exact hcnot (heq ▸ List.mem_map_of_mem _ hc2)
    have hchild2 : ∀ c2 ∈ rest, IsChildOf s c2.id t := by
      intro c2 hc2
      obtain ⟨hm, hp⟩ := hl c2 (List.mem_cons_of_mem _ hc2)
      exact isChildOf_of_mem hm hp
    rw [ids_cons, ids_append] at ha hb
    rcases List.mem_cons.mp ha with ha | ha
    · refine ⟨[c], ds ++ tl, rfl, by simp [ids, ha], ?_⟩
      rcases List.mem_cons.mp hb with hb | hb
      · exact absurd (hb ▸ ha ▸ hab) (desc_irrefl hd)
      · rwa [ids_append]
    · rcases List.mem_append.mp ha with ha | ha
      · have hcb : Desc s c.id b := desc_trans (hdsdesc a ha) hab
        have hbds : b ∈ ids ds := by
          rcases List.mem_cons.mp hb with hb | hb
          · exact absurd (hb ▸ hcb) (desc_irrefl hd)
          · rcases List.mem_append.mp hb with hb | hb
            · exact hb
            · obtain ⟨c2, hc2, hsub2⟩ := htlrange b hb
              exact absurd hsub2 (fun hsub2 => sibling_disjoint hW hd hchild
                (hchild2 c2 hc2) (hne2 c2 hc2) b (Or.inr hcb) hsub2)
        obtain ⟨p1, p2, hsplit, hpa, hpb⟩ := ihpre c.id ds hds a b ha hab hbds
        refine ⟨c :: p1, p2 ++ tl, ?_, ?_, ?_⟩
        · rw [hsplit]; simp
        · rw [ids_cons]; exact List.mem_cons_of_mem _ hpa
        · rw [ids_append]; exact List.mem_append.mpr (Or.inl hpb)
      · obtain ⟨c2, hc2, hsub2⟩ := htlrange a ha
        have hsubb : a = c2.id ∨ Desc s c2.id b := by
          rcases hsub2 with h2 | h2
          · exact Or.inr (h2 ▸ hab)
          · exact Or.inr (desc_trans h2 hab)
        have hsub2b : b = c2.id ∨ Desc s c2.id b := by
          rcases hsubb with h2 | h2
          · exact Or.inr (h2 ▸ hab)
          · exact Or.inr h2
        have hbtl : b ∈ ids tl := by
          rcases List.mem_cons.mp hb with hb | hb
          · exact (sibling_disjoint hW hd hchild (hchild2 c2 hc2) (hne2 c2 hc2) b
              (Or.inl hb) hsub2b).elim
          · rcases List.mem_append.mp hb with hb | hb
            · exact (sibling_disjoint hW hd hchild (hchild2 c2 hc2) (hne2 c2 hc2) b
                (Or.inr (hdsdesc b hb)) hsub2b).elim
            · exact hb
        obtain ⟨p1, p2, hsplit, hpa, hpb⟩ :=
          ih tl (fun x hx => hl x (List.mem_cons_of_mem _ hx)) hrestnod htl a b ha hab hbtl
        refine ⟨c :: (ds ++ p1), p2, ?_, ?_, hpb⟩
        · rw [hsplit]; simp
        · rw [ids_cons, ids_append]
          exact List.mem_cons_of_mem _ (List.mem_append.mpr (Or.inr hpa))

/-- On a well-formed acyclic store the expansion is a pre-order: every node
appears before each of its descendants. -/
theorem fetchDescendants_before {s : DB} (hW : WFIds s) {d : OID → Nat}
    (hd : DepthOk s d) :
    ∀ fuel t out, fetchDescendants s fuel t = some out →
      ∀ a b, a ∈ ids out → Desc s a b → b ∈ ids out →
        ∃ p1 p2, out = p1 ++ p2 ∧ a ∈ ids p1 ∧ b ∈ ids p2 := by
  intro fuel
  induction fuel with
  | zero => intro t out h; cases h
  | succ fuel ih =>
    intro t out h
    exact fetchDescendantsList_before hW hd (fun u ds hds => ih u ds hds)
      (childThreads s t) out (fun c hc => mem_childThreads.mp hc)
      (nodup_ids_childThreads hW t) h

/-! ## Concrete stores used as test vectors -/

/-- The empty store. -/
def emptyDB : DB :=
  { threads := [], users := [], communities := [], nextId := 0 }

/-- Root `R` (id 1) with children `C1` (id 2) and `C2` (id 3); `C1` has the
child `G1` (id 4).  Two users and one community. -/
def rootRec : ThreadRec :=
  { id := 1, text := "R", author := 10, community := none, parentId := none,
    children := [2, 3], createdAt := 1 }

def c1Rec : ThreadRec :=
  { id := 2, text := "C1", author := 11, community := none, parentId := some 1,
    children := [4], createdAt := 2 }

def c2Rec : ThreadRec :=
  { id := 3, text := "C2", author := 11, community := none, parentId := some 1,
    children := [], createdAt := 3 }

def g1Rec : ThreadRec :=
  { id := 4, text := "G1", author := 10, community := none, parentId := some 2,
    children := [], createdAt := 4 }

def forestDB : DB :=
  { threads := [rootRec, c1Rec, c2Rec, g1Rec],
    users := [{ id := 10, threads := [1] }, { id := 11, threads := [] }],
    communities := [{ id := 20, code := 100, threads := [] }],
    nextId := 50 }

/-- The state `deleteThread` produces from `forestDB` on id 1. -/
def delForestDB : DB :=
  { threads := [],
    users := [{ id := 10, threads := [] }, { id := 11, threads := [] }],
    communities := [{ id := 20, code := 100, threads := [] }],
    nextId := 50 }

/-- A corrupted store with a parent-link cycle: thread 1 is its own parent. -/
def cycDB : DB :=
  { threads := [{ id := 1, text := "a", author := 10, community := none,
                  parentId := some 1, children := [], createdAt := 0 }],
    users := [], communities := [], nextId := 2 }

/-- A store where user 11 lists thread 1 without being its author. -/
def extraUserDB : DB :=
  { threads := [{ id := 1, text := "a", author := 10, community := none,
                  parentId := none, children := [], createdAt := 0 }],
    users := [{ id := 10, threads := [1] }, { id := 11, threads := [1] }],
    communities := [], nextId := 2 }

/-- The state `deleteThread` produces from `extraUserDB` on id 1. -/
def extraUserDelDB : DB :=
  { threads := [],
    users := [{ id := 10, threads := [] }, { id := 11, threads := [1] }],
    communities := [], nextId := 2 }

/-- Five root posts with distinct increasing timestamps, plus one reply. -/
def feedDB : DB :=
  { threads := [
      { id := 1, text := "p1", author := 10, community := none, parentId := none,
        children := [], createdAt := 1 },
      { id := 2, text := "p2", author := 10, community := none, parentId := none,
        children := [], createdAt := 2 },
      { id := 3, text := "p3", author := 10, community := none, parentId := none,
        children := [], createdAt := 3 },
      { id := 4, text := "p4", author := 10, community := none, parentId := none,
        children := [6], createdAt := 4 },
      { id := 5, text := "p5", author := 10, community := none, parentId := none,
        children := [], createdAt := 5 },
      { id := 6, text := "r", author := 10, community := none, parentId := some 4,
        children := [], createdAt := 6 }],
    users := [], communities := [], nextId := 7 }

/-! ## Run characterization of `deleteThread` -/

theorem deleteThread_eq_ok {s : DB} {i : OID} {s2 : DB} :
    deleteThread s i = some (Except.ok s2) ↔
      ∃ main descs, findThreadById s i = some main ∧
        fetchAllChildThreads s i = some descs ∧ s2 = deleteApply s i main descs := by
  constructor
  · intro h
    unfold deleteThread at h
    cases hfind : findThreadById s i with
    | none => rw [hfind] at h; simp at h
    | some main =>
      rw [hfind] at h
      cases hfetch : fetchAllChildThreads s i with
      | none => rw [hfetch] at h; cases h
      | some descs =>
        rw [hfetch] at h
        have h2 : Except.ok (α := DB) (deleteApply s i main descs) = Except.ok s2 :=
          Option.some_inj.mp h
        have h3 : deleteApply s i main descs = s2 := by cases h2; rfl
        exact ⟨main, descs, rfl, rfl, h3.symm⟩
  · rintro ⟨main, descs, hfind, hfetch, hs2⟩
    unfold deleteThread
    rw [hfind, hfetch, hs2]

theorem deleteThread_absent {s : DB} {i : OID} (h : findThreadById s i = none) :
    deleteThread s i = some (Except.error Err.NotFound) := by
  unfold deleteThread
  rw [h]

theorem victimIds_not_mem {s2th : List ThreadRec} {i : OID} {descs : List ThreadRec}
    {s : DB} (hth : s2th = s.threads.filter
      (fun t => decide (t.id ∉ victimIds i descs))) :
    ∀ r ∈ s2th, r.id ∉ victimIds i descs := by
  intro r hr
  rw [hth] at hr
  have := (List.mem_filter.mp hr).2
  exact of_decide_eq_true this

/-! ## Claim theorems -/

/-- C6 counterexample: `fetchThreadById` on an id absent from the store (id 7
in the empty store) returns the successful absent value `Except.ok none` and
does not fail with a `NotFound` error, refuting the claim as stated. -/
theorem fetchThreadById_absent_counterexample :
    fetchThreadById emptyDB 7 = Except.ok none ∧
    fetchThreadById emptyDB 7 ≠ Except.error Err.NotFound := by
  decide

/-- C6 (amended): for every store state and every id not present in the
thread store, `fetchThreadById` returns the successful absent value
`Except.ok none` (the source returns the bare `findById` result, `null`
included); it never surfaces an error for a missing id. -/
theorem fetchThreadById_absent_ok_none (s : DB) (i : OID)
    (h : findThreadById s i = none) :
    fetchThreadById s i = Except.ok none ∧
    ∀ e, fetchThreadById s i ≠ Except.error e := by
  unfold fetchThreadById
  rw [h]
  exact ⟨rfl, fun e he => by cases he⟩

/-- Witness for the amended C6 theorem at a concrete input. -/
theorem fetchThreadById_absent_ok_none_witness :
    fetchThreadById emptyDB 7 = Except.ok none ∧
    ∀ e, fetchThreadById emptyDB 7 ≠ Except.error e :=
  fetchThreadById_absent_ok_none emptyDB 7 (by decide)

/-- C5: for every store state and every id that does not resolve to an
existing thread, `deleteThread` fails with `NotFound` rather than silently
succeeding; moreover after any successful `deleteThread` the deleted id no
longer resolves, so the same id passed a second time fails with `NotFound`. -/
theorem deleteThread_stale_id_notFound (s : DB) (i : OID) :
    (findThreadById s i = none → deleteThread s i = some (Except.error Err.NotFound)) ∧
    (∀ s2, deleteThread s i = some (Except.ok s2) →
      findThreadById s2 i = none ∧
      deleteThread s2 i = some (Except.error Err.NotFound)) := by
  refine ⟨deleteThread_absent, ?_⟩
  intro s2 h
  obtain ⟨main, descs, hfind, hfetch, hs2⟩ := deleteThread_eq_ok.mp h
  have hnone : findThreadById s2 i = none := by
    refine findThreadById_eq_none.mpr ?_
    intro r hr heq
    have hnot : r.id ∉ victimIds i descs := by
      refine victimIds_not_mem (s := s) (by rw [hs2]; rfl) r hr
    exact hnot (heq ▸ List.mem_cons_self i _)
  exact ⟨hnone, deleteThread_absent hnone⟩

/-- Witness for C5: deleting an absent id in the empty store errors, and a
second delete of id 1 after the successful delete in `forestDB` errors. -/
theorem deleteThread_stale_id_notFound_witness :
    deleteThread emptyDB 7 = some (Except.error Err.NotFound) ∧
    (findThreadById delForestDB 1 = none ∧
      deleteThread delForestDB 1 = some (Except.error Err.NotFound)) :=
  ⟨(deleteThread_stale_id_notFound emptyDB 7).1 (by decide),
    (deleteThread_stale_id_notFound forestDB 1).2 delForestDB (by decide)⟩

/-- C8: `createRoot` with empty text fails with `ValidationFailed`
immediately; no success value (and hence no modified store) is produced.
The validation layer is not among the provided sources and is modelled from
the spec (see `createRoot`). -/
theorem createRoot_empty_text (s : DB) (author : OID) (communityId : Option OID)
    (now : Nat) :
    createRoot s "" author communityId now = Except.error Err.ValidationFailed ∧
    ∀ p, createRoot s "" author communityId now ≠ Except.ok p := by
  refine ⟨rfl, ?_⟩
  intro p h
  cases h

/-- C4 helper: on the self-parent cycle store no amount of fuel lets the
recursion of `fetchAllChildThreads` finish when started at the cycle. -/
theorem cycDB_no_fuel : ∀ fuel, fetchDescendants cycDB fuel 1 = none := by
  intro fuel
  induction fuel with
  | zero => rfl
  | succ fuel ih =>
    rw [fetchDescendants_succ]
    have hch : childThreads cycDB 1 =
        [{ id := 1, text := "a", author := 10, community := none,
           parentId := some 1, children := [], createdAt := 0 }] := by decide
    rw [hch, fetchDescendantsList]
    simp only [ih]

/-- C4 counterexample: on the corrupted store `cycDB`, whose single thread is
its own parent, the expansion of thread 1 does not terminate for any
recursion depth — the source has no visited-set guard — refuting the claim
that the traversal terminates on every store state including cyclic ones. -/
theorem fetchAllChildThreads_cyclic_counterexample :
    fetchAllChildThreads cycDB 1 = none ∧
    ¬ ∃ fuel out, fetchDescendants cycDB fuel 1 = some out := by
  constructor
  · decide
  · rintro ⟨fuel, out, hout⟩
    rw [cycDB_no_fuel fuel] at hout
    cases hout

/-- C4 (amended): on every store whose parent links admit a strictly
increasing depth measure (equivalently: no parent-link cycle; dangling
references allowed) and whose ids are unique, the subtree expansion
terminates and returns a sequence in which no thread id is repeated. -/
theorem fetchAllChildThreads_terminates_nodup (s : DB) (t : OID)
    (hW : WFIds s) (hF : Forest s) :
    ∃ out, fetchAllChildThreads s t = some out ∧ (ids out).Nodup := by
  obtain ⟨out, hout⟩ := fetchAllChildThreads_isSome hF t
  obtain ⟨d, hd⟩ := hF
  exact ⟨out, hout, fetchDescendants_nodup hW hd _ t out hout⟩

/-- Witness for the amended C4 theorem on the concrete forest store. -/
theorem fetchAllChildThreads_terminates_nodup_witness :
    ∃ out, fetchAllChildThreads forestDB 1 = some out ∧ (ids out).Nodup :=
  fetchAllChildThreads_terminates_nodup forestDB 1 (by decide)
    ⟨fun i => i, by decide⟩

theorem fetchAllChildThreads_eq (s : DB) (t : OID) :
    fetchAllChildThreads s t = fetchDescendants s (s.threads.length + 1) t := rfl

/-- The computed victim id list is exactly the root id plus the ids of the
transitive descendants. -/
theorem mem_victimIds_iff {s : DB} {i : OID} {descs : List ThreadRec}
    (hdescs : fetchAllChildThreads s i = some descs) :
    ∀ x, x ∈ victimIds i descs ↔ (x = i ∨ Desc s i x) := by
  rw [fetchAllChildThreads_eq] at hdescs
  intro x
  constructor
  · intro hx
    rcases List.mem_cons.mp hx with rfl | hx
    · exact Or.inl rfl
    · exact Or.inr (fetchDescendants_desc _ _ _ hdescs x hx)
  · rintro (rfl | hx)
    · exact List.mem_cons_self _ _
    · exact List.mem_cons_of_mem _ (fetchDescendants_complete _ _ _ hdescs x hx)

/-- C1: on a store whose parent/child links form a forest (with unique ids)
and any `rootId` present in it, `fetchAllChildThreads` returns the sequence
of all transitive descendants of `rootId`, excluding `rootId` itself, each
exactly once, in pre-order (every node precedes each of its own
descendants); for a thread with no replies it returns the empty sequence. -/
theorem fetchAllChildThreads_spec (s : DB) (rootId : OID)
    (hW : WFIds s) (hF : Forest s) (hroot : ∃ r ∈ s.threads, r.id = rootId) :
    ∃ out, fetchAllChildThreads s rootId = some out ∧
      (∀ x, x ∈ ids out ↔ Desc s rootId x) ∧
      rootId ∉ ids out ∧
      (ids out).Nodup ∧
      (∀ a b, a ∈ ids out → Desc s a b → b ∈ ids out →
        ∃ p1 p2, out = p1 ++ p2 ∧ a ∈ ids p1 ∧ b ∈ ids p2) ∧
      (childThreads s rootId = [] → out = []) := by
  obtain ⟨out, hout⟩ := fetchAllChildThreads_isSome hF rootId
  obtain ⟨d, hd⟩ := hF
  rw [fetchAllChildThreads_eq] at hout
  refine ⟨out, hout, ?_, ?_, ?_, ?_, ?_⟩
  · intro x
    exact ⟨fun hx => fetchDescendants_desc _ _ _ hout x hx,
      fun hx => fetchDescendants_complete _ _ _ hout x hx⟩
  · intro hmem
    exact desc_irrefl hd (fetchDescendants_desc _ _ _ hout rootId hmem)
  · exact fetchDescendants_nodup hW hd _ _ _ hout
  · exact fetchDescendants_before hW hd _ _ _ hout
  · intro hleaf
    have h0 : fetchDescendants s (s.threads.length + 1) rootId = some [] := by
      rw [fetchDescendants_succ, hleaf]
      rfl
    have := hout.symm.trans h0
    exact Option.some_inj.mp this

/-- Witness for C1 on the concrete forest store: root 1 has descendants
{2, 3, 4} returned as [2, 4, 3] — child 2 (`C1`) before grandchild 4 (`G1`). -/
theorem fetchAllChildThreads_spec_witness :
    (∃ r ∈ forestDB.threads, r.id = 1) ∧
    (∃ out, fetchAllChildThreads forestDB 1 = some out ∧
      (∀ x, x ∈ ids out ↔ Desc forestDB 1 x) ∧
      1 ∉ ids out ∧
      (ids out).Nodup ∧
      (∀ a b, a ∈ ids out → Desc forestDB a b → b ∈ ids out →
        ∃ p1 p2, out = p1 ++ p2 ∧ a ∈ ids p1 ∧ b ∈ ids p2) ∧
      (childThreads forestDB 1 = [] → out = [])) ∧
    Option.map ids (fetchAllChildThreads forestDB 1) = some [2, 4, 3] :=
  ⟨by decide,
    fetchAllChildThreads_spec forestDB 1 (by decide) ⟨fun i => i, by decide⟩ (by decide),
    by decide⟩

/-- C2 counterexample: after the successful cascading delete of thread 1 in
`forestDB`, `fetchThreadById` on the deleted id returns the successful
absent value `Except.ok none` — it does not fail with `NotFound` as the
claim states. -/
theorem deleteThread_fetchById_counterexample :
    deleteThread forestDB 1 = some (Except.ok delForestDB) ∧
    fetchThreadById delForestDB 1 = Except.ok none ∧
    fetchThreadById delForestDB 1 ≠ Except.error Err.NotFound := by
  decide

/-- C2 (amended): on a well-formed forest store, after `deleteThread(T)`
succeeds, `T` and every former transitive descendant of `T` are absent from
the thread store — `fetchThreadById` on each of them returns the successful
absent value `Except.ok none` (not a `NotFound` error, which the source never
raises on reads) — while every thread outside the deleted subtree remains
present unchanged. -/
theorem deleteThread_removes_subtree (s : DB) (i : OID) (main : ThreadRec)
    (hW : WFIds s) (hF : Forest s) (hmain : findThreadById s i = some main) :
    ∃ s2, deleteThread s i = some (Except.ok s2) ∧
      (∀ x, (x = i ∨ Desc s i x) →
        findThreadById s2 x = none ∧ fetchThreadById s2 x = Except.ok none) ∧
      (∀ r ∈ s.threads, r.id ≠ i → ¬ Desc s i r.id → r ∈ s2.threads) ∧
      (∀ r ∈ s2.threads, r ∈ s.threads) := by
  obtain ⟨descs, hdescs⟩ := fetchAllChildThreads_isSome hF i
  refine ⟨deleteApply s i main descs,
    deleteThread_eq_ok.mpr ⟨main, descs, hmain, hdescs, rfl⟩, ?_, ?_, ?_⟩
  · intro x hx
    have hxv := (mem_victimIds_iff hdescs x).mpr hx
    have hnone : findThreadById (deleteApply s i main descs) x = none := by
      refine findThreadById_eq_none.mpr ?_
      intro r hr heq
      exact victimIds_not_mem (s := s) rfl r hr (heq ▸ hxv)
    refine ⟨hnone, ?_⟩
    unfold fetchThreadById
    rw [hnone]
    rfl
  · intro r hr hne hnd
    refine List.mem_filter.mpr ⟨hr, decide_eq_true ?_⟩
    intro hmem
    rcases (mem_victimIds_iff hdescs r.id).mp hmem with h | h
    · exact hne h
    · exact hnd h
  · intro r hr
    exact List.mem_of_mem_filter hr

/-- Witness for the amended C2 theorem on the concrete forest store. -/
theorem deleteThread_removes_subtree_witness :
    ∃ s2, deleteThread forestDB 1 = some (Except.ok s2) ∧
      (∀ x, (x = 1 ∨ Desc forestDB 1 x) →
        findThreadById s2 x = none ∧ fetchThreadById s2 x = Except.ok none) ∧
      (∀ r ∈ forestDB.threads, r.id ≠ 1 → ¬ Desc forestDB 1 r.id → r ∈ s2.threads) ∧
      (∀ r ∈ s2.threads, r ∈ forestDB.threads) :=
  deleteThread_removes_subtree forestDB 1 rootRec (by decide)
    ⟨fun i => i, by decide⟩ (by decide)

/-- C3 counterexample: in `extraUserDB`, user 11 lists thread 1 without
being its author; after the successful `deleteThread(1)` the cross-reference
retraction only touches authors/communities of deleted threads, so user 11
still lists the deleted id 1, refuting the claim for arbitrary store
states. -/
theorem deleteThread_ownership_counterexample :
    deleteThread extraUserDB 1 = some (Except.ok extraUserDelDB) ∧
    (∃ u ∈ extraUserDelDB.users, 1 ∈ u.threads) := by
  decide

/-- C3 (amended): on a well-formed forest store in which thread lists of
users and communities only mention stored threads they own (each listed
thread's `author`/`community` is that user/community — the invariant the
creation operations maintain), after `deleteThread(T)` succeeds no User and
no Community record still lists `T` or any id of a former transitive
descendant of `T`. -/
theorem deleteThread_retracts_references (s : DB) (i : OID) (main : ThreadRec)
    (hW : WFIds s) (hF : Forest s) (hmain : findThreadById s i = some main)
    (hUO : UserOwnership s) (hCO : CommunityOwnership s) :
    ∃ s2, deleteThread s i = some (Except.ok s2) ∧
      (∀ u ∈ s2.users, ∀ x, (x = i ∨ Desc s i x) → x ∉ u.threads) ∧
      (∀ c ∈ s2.communities, ∀ x, (x = i ∨ Desc s i x) → x ∉ c.threads) := by
  obtain ⟨descs, hdescs⟩ := fetchAllChildThreads_isSome hF i
  obtain ⟨hmainm, hmaini⟩ := findThreadById_eq_some hmain
  have hdmem : ∀ r ∈ descs, r ∈ s.threads := by
    rw [fetchAllChildThreads_eq] at hdescs
    exact fetchDescendants_mem _ _ _ hdescs
  refine ⟨deleteApply s i main descs,
    deleteThread_eq_ok.mpr ⟨main, descs, hmain, hdescs, rfl⟩, ?_, ?_⟩
  · intro u2 hu2 x hx hxthreads
    have hxv := (mem_victimIds_iff hdescs x).mpr hx
    obtain ⟨u, hu, hequ⟩ := List.mem_map.mp hu2
    by_cases hcase : u.id ∈ authorIds main descs
    · rw [if_pos hcase] at hequ
      rw [← hequ] at hxthreads
      have := (List.mem_filter.mp hxthreads).2
      exact of_decide_eq_true this hxv
    · rw [if_neg hcase] at hequ
      rw [← hequ] at hxthreads
      rcases hx with rfl | hdx
      · have hau : main.author = u.id := hUO u hu x hxthreads main hmainm hmaini
        exact hcase (List.mem_append.mpr (Or.inr (hau ▸ List.mem_singleton.mpr rfl)))
      · have hxids : x ∈ ids descs := by
          rw [fetchAllChildThreads_eq] at hdescs
          exact fetchDescendants_complete _ _ _ hdescs x hdx
        obtain ⟨rec, hrec, hrecid⟩ := mem_ids.mp hxids
        have hau : rec.author = u.id := hUO u hu x hxthreads rec (hdmem rec hrec) hrecid
        refine hcase (List.mem_append.mpr (Or.inl ?_))
        exact hau ▸ List.mem_map_of_mem _ hrec
  · intro c2 hc2 x hx hxthreads
    have hxv := (mem_victimIds_iff hdescs x).mpr hx
    obtain ⟨c, hc, heqc⟩ := List.mem_map.mp hc2
    by_cases hcase : c.id ∈ communityIds main descs
    · rw [if_pos hcase] at heqc
      rw [← heqc] at hxthreads
      have := (List.mem_filter.mp hxthreads).2
      exact of_decide_eq_true this hxv
    · rw [if_neg hcase] at heqc
      rw [← heqc] at hxthreads
      rcases hx with rfl | hdx
      · have hco : main.community = some c.id := hCO c hc x hxthreads main hmainm hmaini
        refine hcase (List.reduceOption_mem_iff.mpr ?_)
        exact List.mem_append.mpr (Or.inr (hco ▸ List.mem_singleton.mpr rfl))
      · have hxids : x ∈ ids descs := by
          rw [fetchAllChildThreads_eq] at hdescs
          exact fetchDescendants_complete _ _ _ hdescs x hdx
        obtain ⟨rec, hrec, hrecid⟩ := mem_ids.mp hxids
        have hco : rec.community = some c.id := hCO c hc x hxthreads rec (hdmem rec hrec) hrecid
        refine hcase (List.reduceOption_mem_iff.mpr ?_)
        exact List.mem_append.mpr (Or.inl (hco ▸ List.mem_map_of_mem _ hrec))

/-- Witness for the amended C3 theorem on the concrete forest store. -/
theorem deleteThread_retracts_references_witness :
    ∃ s2, deleteThread forestDB 1 = some (Except.ok s2) ∧
      (∀ u ∈ s2.users, ∀ x, (x = 1 ∨ Desc forestDB 1 x) → x ∉ u.threads) ∧
      (∀ c ∈ s2.communities, ∀ x, (x = 1 ∨ Desc forestDB 1 x) → x ∉ c.threads) :=
  deleteThread_retracts_references forestDB 1 rootRec (by decide)
    ⟨fun i => i, by decide⟩ (by decide) (by decide) (by decide)

/-! ## Run lemmas for `addCommentToThread` -/

theorem pushChild_id (n p : OID) (t : ThreadRec) : (pushChild n p t).id = t.id := by
  unfold pushChild
  split <;> rfl

theorem pushChild_parentId (n p : OID) (t : ThreadRec) :
    (pushChild n p t).parentId = t.parentId := by
  unfold pushChild
  split <;> rfl

theorem pushChild_of_ne {n p : OID} {t : ThreadRec} (h : t.id ≠ p) :
    pushChild n p t = t := by
  unfold pushChild
  rw [if_neg h]

theorem pushChild_of_eq {n p : OID} {t : ThreadRec} (h : t.id = p) :
    pushChild n p t = { t with children := t.children ++ [n] } := by
  unfold pushChild
  rw [if_pos h]

theorem commentApply_threads (s : DB) (pid : OID) (txt : String) (uid : OID) (now : Nat) :
    (commentApply s pid txt uid now).threads =
      (s.threads.map (pushChild s.nextId pid)) ++ [commentRec s pid txt uid now] := rfl

theorem commentRec_id (s : DB) (pid : OID) (txt : String) (uid : OID) (now : Nat) :
    (commentRec s pid txt uid now).id = s.nextId := rfl

theorem addComment_absent {s : DB} {pid : OID} {txt : String} {uid : OID} {now : Nat}
    (h : findThreadById s pid = none) :
    addCommentToThread s pid txt uid now = Except.error Err.NotFound := by
  unfold addCommentToThread
  rw [h]

theorem addComment_present {s : DB} {pid : OID} {txt : String} {uid : OID} {now : Nat}
    {parent : ThreadRec} (h : findThreadById s pid = some parent) :
    addCommentToThread s pid txt uid now =
      Except.ok (commentApply s pid txt uid now, s.nextId) := by
  unfold addCommentToThread
  rw [h]

theorem find_comp_pushChild (n p y : OID) :
    ((fun r : ThreadRec => decide (r.id = y)) ∘ pushChild n p) =
      (fun t : ThreadRec => decide (t.id = y)) := by
  funext t
  simp only [Function.comp_apply, pushChild_id]

theorem find_commentApply_old {s : DB} {pid : OID} {txt : String} {uid : OID} {now : Nat}
    {y : OID} (hy : y ≠ s.nextId) :
    findThreadById (commentApply s pid txt uid now) y =
      (findThreadById s y).map (pushChild s.nextId pid) := by
  unfold findThreadById
  rw [commentApply_threads, List.find?_append, List.find?_map, find_comp_pushChild]
  have hnew : List.find? (fun r => decide (r.id = y)) [commentRec s pid txt uid now]
      = none := by
    rw [List.find?_eq_none]
    intro x hx
    rw [List.mem_singleton] at hx
    subst hx
    simp only [commentRec_id, decide_eq_true_eq]
    exact fun h => hy h.symm
  rw [hnew, Option.or_none]

theorem find_commentApply_new {s : DB} {pid : OID} {txt : String} {uid : OID} {now : Nat}
    (hFresh : IdsFresh s) :
    findThreadById (commentApply s pid txt uid now) s.nextId =
      some (commentRec s pid txt uid now) := by
  unfold findThreadById
  rw [commentApply_threads, List.find?_append, List.find?_map, find_comp_pushChild]
  have hold : List.find? (fun t : ThreadRec => decide (t.id = s.nextId)) s.threads
      = none := by
    rw [List.find?_eq_none]
    intro x hx
    simp only [decide_eq_true_eq]
    exact Nat.ne_of_lt (hFresh x hx).1
  rw [hold]
  have hpos : (fun r : ThreadRec => decide (r.id = s.nextId))
      (commentRec s pid txt uid now) = true := by
    simp [commentRec_id]
  exact @List.find?_cons_of_pos ThreadRec (fun r : ThreadRec => decide (r.id = s.nextId))
    (commentRec s pid txt uid now) [] hpos

theorem find_commentApply_parent {s : DB} {pid : OID} {txt : String} {uid : OID}
    {now : Nat} {parent : ThreadRec} (hFresh : IdsFresh s)
    (hp : findThreadById s pid = some parent) :
    findThreadById (commentApply s pid txt uid now) pid =
      some { parent with children := parent.children ++ [s.nextId] } := by
  obtain ⟨hpm, hpi⟩ := findThreadById_eq_some hp
  have hne : pid ≠ s.nextId := by
    rw [← hpi]
    exact Nat.ne_of_lt (hFresh parent hpm).1
  rw [find_commentApply_old hne, hp]
  show some (pushChild s.nextId pid parent) = _
  rw [pushChild_of_eq hpi]

theorem ids_filterMap_find (u : DB) :
    ∀ l : List OID, ids (l.filterMap (findThreadById u)) =
      l.filter (fun y => (findThreadById u y).isSome) := by
  intro l
  induction l with
  | nil => rfl
  | cons y tl ih =>
    rw [List.filterMap_cons, List.filter_cons]
    cases hy : findThreadById u y with
    | none =>
      simp only [hy, Option.isSome_none, Bool.false_eq_true, if_false]
      exact ih
    | some r =>
      have hrid : r.id = y := (findThreadById_eq_some hy).2
      simp only [hy, Option.isSome_some, if_true]
      rw [ids_cons, ih, hrid]

/-- `ChildrenLinked` is preserved by a successful comment attachment. -/
theorem commentApply_childrenLinked {s : DB} {pid : OID} {txt : String} {uid : OID}
    {now : Nat} {parent : ThreadRec} (hFresh : IdsFresh s)
    (hp : findThreadById s pid = some parent) (hCL : ChildrenLinked s) :
    ChildrenLinked (commentApply s pid txt uid now) := by
  intro r hr c hc q hq hqid
  rw [commentApply_threads] at hr hq
  rcases List.mem_append.mp hr with hr | hr
  · obtain ⟨r0, hr0, hr0eq⟩ := List.mem_map.mp hr
    by_cases hrp : r0.id = pid
    · rw [← hr0eq, pushChild_of_eq hrp] at hc ⊢
      rcases List.mem_append.mp hc with hc | hc
      · rcases List.mem_append.mp hq with hq | hq
        · obtain ⟨q0, hq0, hq0eq⟩ := List.mem_map.mp hq
          have hq0id : q0.id = c := by
            rw [← hq0eq, pushChild_id] at hqid
            exact hqid
          have hlink := hCL r0 hr0 c hc q0 hq0 hq0id
          rw [← hq0eq, pushChild_parentId, hlink]
        · rw [List.mem_singleton] at hq
          have hlt : c < s.nextId := (hFresh r0 hr0).2 c hc
          rw [hq, commentRec_id] at hqid
          exact absurd hqid.symm (Nat.ne_of_lt hlt)
      · rw [List.mem_singleton] at hc
        subst hc
        rcases List.mem_append.mp hq with hq | hq
        · obtain ⟨q0, hq0, hq0eq⟩ := List.mem_map.mp hq
          have hlt : q0.id < s.nextId := (hFresh q0 hq0).1
          rw [← hq0eq, pushChild_id] at hqid
          exact absurd hqid (Nat.ne_of_lt hlt)
        · rw [List.mem_singleton] at hq
          subst hq
          show (commentRec s pid txt uid now).parentId = _
          simp only [commentRec]
          rw [show ({ r0 with children := r0.children ++ [s.nextId] } : ThreadRec).id
            = r0.id from rfl, hrp]
    · rw [← hr0eq, pushChild_of_ne hrp] at hc ⊢
      rcases List.mem_append.mp hq with hq | hq
      · obtain ⟨q0, hq0, hq0eq⟩ := List.mem_map.mp hq
        have hq0id : q0.id = c := by
          rw [← hq0eq, pushChild_id] at hqid
          exact hqid
        have hlink := hCL r0 hr0 c hc q0 hq0 hq0id
        rw [← hq0eq, pushChild_parentId, hlink]
      · rw [List.mem_singleton] at hq
        have hlt : c < s.nextId := (hFresh r0 hr0).2 c hc
        rw [hq, commentRec_id] at hqid
        exact absurd hqid.symm (Nat.ne_of_lt hlt)
  · rw [List.mem_singleton] at hr
    rw [hr] at hc
    cases hc

theorem count_filter_of_pos {α : Type} [BEq α] [LawfulBEq α] (p : α → Bool) (a : α)
    (h : p a = true) : ∀ l : List α, List.count a (l.filter p) = List.count a l := by
  intro l
  induction l with
  | nil => rfl
  | cons b tl ih =>
    rw [List.filter_cons]
    cases hb : p b with
    | true =>
      simp only [hb, if_true]
      rw [List.count_cons, List.count_cons, ih]
    | false =>
      simp only [hb, Bool.false_eq_true, if_false]
      rw [ih, List.count_cons]
      have hba : (b == a) = false := by
        cases hba : b == a
        · rfl
        · have hba2 : b = a := eq_of_beq hba
          rw [hba2, h] at hb
          cases hb
      rw [hba]
      simp

/-- C7: `addCommentToThread` fails with `NotFound` when the parent id does
not resolve; when the parent exists it creates a new thread whose `parentId`
is the parent's id, appends the new id exactly once at the end of the
parent's children, a subsequent `fetchThreadById(parentId)` shows the
reply's id exactly once among the expanded children, and the invariant that
`children` lists only threads whose `parentId` is the parent's id is
preserved. -/
theorem addCommentToThread_spec (s : DB) (pid : OID) (txt : String) (uid : OID)
    (now : Nat) (hW : WFIds s) (hFresh : IdsFresh s) :
    (findThreadById s pid = none →
      addCommentToThread s pid txt uid now = Except.error Err.NotFound) ∧
    (∀ parent, findThreadById s pid = some parent →
      ∃ s2, addCommentToThread s pid txt uid now = Except.ok (s2, s.nextId) ∧
        commentRec s pid txt uid now ∈ s2.threads ∧
        (commentRec s pid txt uid now).parentId = some pid ∧
        findThreadById s2 pid =
          some { parent with children := parent.children ++ [s.nextId] } ∧
        List.count s.nextId (parent.children ++ [s.nextId]) = 1 ∧
        fetchThreadById s2 pid = Except.ok (some
          ({ parent with children := parent.children ++ [s.nextId] },
            (parent.children ++ [s.nextId]).filterMap (findThreadById s2))) ∧
        List.count s.nextId
          (ids ((parent.children ++ [s.nextId]).filterMap (findThreadById s2))) = 1 ∧
        (ChildrenLinked s → ChildrenLinked s2)) := by
  refine ⟨fun h => addComment_absent h, ?_⟩
  intro parent hp
  obtain ⟨hpm, hpi⟩ := findThreadById_eq_some hp
  have hcnt : List.count s.nextId (parent.children ++ [s.nextId]) = 1 := by
    rw [List.count_append]
    have h0 : List.count s.nextId parent.children = 0 := by
      refine List.count_eq_zero.mpr ?_
      intro hmem
      exact Nat.lt_irrefl _ ((hFresh parent hpm).2 _ hmem)
    rw [h0, List.count_singleton]
    simp
  refine ⟨commentApply s pid txt uid now, addComment_present hp, ?_, rfl, ?_, hcnt,
    ?_, ?_, ?_⟩
  · rw [commentApply_threads]
    exact List.mem_append.mpr (Or.inr (List.mem_singleton.mpr rfl))
  · exact find_commentApply_parent hFresh hp
  · unfold fetchThreadById
    rw [find_commentApply_parent hFresh hp]
    rfl
  · rw [ids_filterMap_find]
    have hpos : (fun y => (findThreadById (commentApply s pid txt uid now) y).isSome)
        s.nextId = true := by
      show (findThreadById (commentApply s pid txt uid now) s.nextId).isSome = true
      rw [find_commentApply_new hFresh]
      rfl
    exact (count_filter_of_pos
      (fun y => (findThreadById (commentApply s pid txt uid now) y).isSome)
      s.nextId hpos (parent.children ++ [s.nextId])).trans hcnt
  · exact fun hCL => commentApply_childrenLinked hFresh hp hCL

/-- Witness for C7 on the concrete forest store: a reply to thread 1 and an
attempt on the absent id 99. -/
theorem addCommentToThread_spec_witness :
    (addCommentToThread forestDB 99 "x" 10 9 = Except.error Err.NotFound) ∧
    (∃ s2, addCommentToThread forestDB 1 "x" 10 9 = Except.ok (s2, forestDB.nextId) ∧
      commentRec forestDB 1 "x" 10 9 ∈ s2.threads ∧
      (commentRec forestDB 1 "x" 10 9).parentId = some 1 ∧
      findThreadById s2 1 =
        some { rootRec with children := rootRec.children ++ [forestDB.nextId] } ∧
      List.count forestDB.nextId (rootRec.children ++ [forestDB.nextId]) = 1 ∧
      fetchThreadById s2 1 = Except.ok (some
        ({ rootRec with children := rootRec.children ++ [forestDB.nextId] },
          (rootRec.children ++ [forestDB.nextId]).filterMap (findThreadById s2))) ∧
      List.count forestDB.nextId
        (ids ((rootRec.children ++ [forestDB.nextId]).filterMap (findThreadById s2))) = 1 ∧
      (ChildrenLinked forestDB → ChildrenLinked s2)) :=
  ⟨(addCommentToThread_spec forestDB 99 "x" 10 9 (by decide) (by decide)).1 (by decide),
    (addCommentToThread_spec forestDB 1 "x" 10 9 (by decide) (by decide)).2
      rootRec (by decide)⟩

/-- C10: a successful `addCommentToThread` mutates only the new reply record
and the parent's children list: the `users` and `communities` collections
are untouched (in particular no user's thread list gains the reply id —
only root creation via `createThread` pushes there), every thread other
than the parent is carried over unchanged, and nothing beyond the updated
parent and the new reply is added. -/
theorem addCommentToThread_frame (s : DB) (pid : OID) (txt : String) (uid : OID)
    (now : Nat) (parent : ThreadRec) (hp : findThreadById s pid = some parent) :
    ∃ s2, addCommentToThread s pid txt uid now = Except.ok (s2, s.nextId) ∧
      s2.users = s.users ∧
      s2.communities = s.communities ∧
      (∀ r ∈ s.threads, r.id ≠ pid → r ∈ s2.threads) ∧
      (∀ r ∈ s2.threads, r ∈ s.threads ∨ r.id = pid ∨ r.id = s.nextId) := by
  refine ⟨commentApply s pid txt uid now, addComment_present hp, rfl, rfl, ?_, ?_⟩
  · intro r hr hne
    rw [commentApply_threads]
    refine List.mem_append.mpr (Or.inl ?_)
    have heq : pushChild s.nextId pid r = r := pushChild_of_ne hne
    exact heq ▸ List.mem_map_of_mem _ hr
  · intro r hr
    rw [commentApply_threads] at hr
    rcases List.mem_append.mp hr with hr | hr
    · obtain ⟨r0, hr0, hr0eq⟩ := List.mem_map.mp hr
      by_cases hcase : r0.id = pid
      · right; left
        rw [← hr0eq, pushChild_id]
        exact hcase
      · left
        rw [← hr0eq, pushChild_of_ne hcase]
        exact hr0
    · right; right
      rw [List.mem_singleton.mp hr]
      rfl

/-- Witness for C10 on the concrete forest store. -/
theorem addCommentToThread_frame_witness :
    ∃ s2, addCommentToThread forestDB 1 "x" 10 9 = Except.ok (s2, forestDB.nextId) ∧
      s2.users = forestDB.users ∧
      s2.communities = forestDB.communities ∧
      (∀ r ∈ forestDB.threads, r.id ≠ 1 → r ∈ s2.threads) ∧
      (∀ r ∈ s2.threads, r ∈ forestDB.threads ∨ r.id = 1 ∨ r.id = forestDB.nextId) :=
  addCommentToThread_frame forestDB 1 "x" 10 9 rootRec (by decide)

/-- C9: for pages and page sizes at least 1, `fetchPosts` returns exactly a
window of the root threads ordered by `createdAt` descending — the result is
the slice of `sortedRoots` (a permutation of the root set, sorted
descending) skipping `(page-1)*pageSize` entries and keeping at most
`pageSize` — every returned record is a root thread of the store, and
`isNext` holds exactly when the total root count exceeds the offset plus the
number of returned threads. -/
theorem fetchPosts_spec (s : DB) (page pageSize : Nat)
    (hpage : 1 ≤ page) (hsize : 1 ≤ pageSize) :
    (fetchPosts s page pageSize).1 =
      ((sortedRoots s).drop ((page - 1) * pageSize)).take pageSize ∧
    List.Perm (sortedRoots s) (rootThreads s) ∧
    List.Pairwise createdDesc (sortedRoots s) ∧
    (∀ r ∈ (fetchPosts s page pageSize).1, r ∈ s.threads ∧ r.parentId = none) ∧
    (fetchPosts s page pageSize).1.length ≤ pageSize ∧
    ((fetchPosts s page pageSize).2 = true ↔
      (rootThreads s).length >
        (page - 1) * pageSize + (fetchPosts s page pageSize).1.length) := by
  refine ⟨rfl, List.perm_insertionSort _ _, List.sorted_insertionSort _ _, ?_, ?_, ?_⟩
  · intro r hr
    have h1 : r ∈ sortedRoots s := List.mem_of_mem_drop (List.mem_of_mem_take hr)
    have h2 : r ∈ rootThreads s := (List.perm_insertionSort createdDesc _).mem_iff.mp h1
    have h3 := List.mem_filter.mp h2
    exact ⟨h3.1, of_decide_eq_true h3.2⟩
  · exact List.length_take_le _ _
  · exact ⟨fun h => of_decide_eq_true h, fun h => decide_eq_true h⟩

/-- Witness for C9: five roots with distinct increasing timestamps; page 1
of size 2 returns the two newest (ids 5 and 4) with `isNext` true, page 3
returns the single oldest (id 1) with `isNext` false. -/
theorem fetchPosts_spec_witness :
    ((fetchPosts feedDB 1 2).1 =
        ((sortedRoots feedDB).drop ((1 - 1) * 2)).take 2 ∧
      List.Perm (sortedRoots feedDB) (rootThreads feedDB) ∧
      List.Pairwise createdDesc (sortedRoots feedDB) ∧
      (∀ r ∈ (fetchPosts feedDB 1 2).1, r ∈ feedDB.threads ∧ r.parentId = none) ∧
      (fetchPosts feedDB 1 2).1.length ≤ 2 ∧
      ((fetchPosts feedDB 1 2).2 = true ↔
        (rootThreads feedDB).length > (1 - 1) * 2 + (fetchPosts feedDB 1 2).1.length)) ∧
    ids (fetchPosts feedDB 1 2).1 = [5, 4] ∧
    (fetchPosts feedDB 1 2).2 = true ∧
    ids (fetchPosts feedDB 3 2).1 = [1] ∧
    (fetchPosts feedDB 3 2).2 = false :=
  ⟨fetchPosts_spec feedDB 1 2 (by decide) (by decide),
    by decide, by decide, by decide, by decide⟩

end Threads
